import Mathlib

/-!
Verification of the test-orchestrator core described by the repository's
specification: the TestList inventory, the deterministic Partitioner, and
the TestFilter. The repository's source tree exposes only rustdoc trait
declarations (FromStr / Serialize implementors for
`nextest_runner::partition::PartitionerBuilder`,
`nextest_runner::test_filter::RunIgnored`,
`testrunner::test_filter::FilterMatch` / `MismatchReason`, and
`testrunner::test_list::TestList`), so the component bodies are modelled
from the specification's component-design sections.
-/

/-- Modelled from the spec: `TestBinInfo`, per-binary metadata (count of
discovered tests and capability flags). -/
structure TestBinInfo where
  testCount : Nat
  supportsIgnoredFilter : Bool
  supportsJsonOutput : Bool
deriving DecidableEq

/-- Modelled from the spec: `RustTestInfo` / `NativeTestInfo`, per-test
attributes inside a binary: fully qualified name and ignored flag. -/
structure NativeTestInfo where
  name : String
  ignored : Bool
deriving DecidableEq

/-- Modelled from the spec: one entry of the TestList, a binary identity
with its metadata and its discovered tests. -/
structure TestListEntry where
  binaryId : String
  binInfo : TestBinInfo
  tests : List NativeTestInfo
deriving DecidableEq

/-- Modelled from the spec: `TestList`, an ordered collection of binaries
with their tests; insertion order is preserved for deterministic
iteration. -/
abbrev TestList := List TestListEntry

/-- Modelled from the spec: stable iteration over all (binary identity,
test name) pairs of a TestList, in insertion order. -/
def allTests : TestList → List (String × String)
  | [] => []
  | e :: rest => e.tests.map (fun t => (e.binaryId, t.name)) ++ allTests rest

/-- Index of the first occurrence of an element in a list, if present. -/
def idxOf? (x : String × String) : List (String × String) → Option Nat
  | [] => none
  | y :: ys => if y = x then some 0 else (idxOf? x ys).map (· + 1)

/-- Modelled from the spec: the ordinal index of a test, derived from the
TestList's stable iteration order (computed at classification time, per
the design notes). -/
def testOrdinal (tl : TestList) (bid tn : String) : Option Nat :=
  idxOf? (bid, tn) (allTests tl)

/-- Modelled from the spec: the two partitioning strategies of
`nextest_runner::partition::PartitionerBuilder`. -/
inductive PartitionStrategy
  | count
  | hash
deriving DecidableEq

/-- Modelled from the spec: `PartitionerBuilder`, a strategy plus a
1-indexed shard and a total shard count. -/
structure PartitionerBuilder where
  strategy : PartitionStrategy
  shard : Nat
  totalShards : Nat
deriving DecidableEq

/-- One step of the fixed, documented hash: multiply-accumulate over a
64-bit word. -/
def hashStep (h : Nat) (c : Char) : Nat :=
  (h * 31 + c.toNat) % 2 ^ 64

/-- Modelled from the spec: the stable hash of (binary identity, test
name) used by hash-based partitioning, a fixed pure function of its two
arguments only. -/
def stableHash (bid tn : String) : Nat :=
  List.foldl hashStep 5381 (bid.data ++ ':' :: tn.data)

/-- Modelled from the spec: the shard a test is assigned to. Count-based:
(ordinal index mod total) + 1 from the TestList's stable order;
hash-based: (stable hash mod total) + 1. -/
def assignedShard (st : PartitionStrategy) (total : Nat) (tl : TestList)
    (bid tn : String) : Option Nat :=
  match st with
  | .count => (testOrdinal tl bid tn).map (fun i => i % total + 1)
  | .hash => some (stableHash bid tn % total + 1)

/-- Modelled from the spec: `classify(binary_id, test_name) -> bool`,
true when the test's assigned shard is this partitioner's shard. -/
def PartitionerBuilder.classify (p : PartitionerBuilder) (tl : TestList)
    (bid tn : String) : Bool :=
  match assignedShard p.strategy p.totalShards tl bid tn with
  | some s => s == p.shard
  | none => false

lemma idxOf?_of_mem {x : String × String} :
    {l : List (String × String)} → x ∈ l → ∃ i, idxOf? x l = some i
  | [], hx => absurd hx (List.not_mem_nil x)
  | y :: ys, hx => by
    by_cases hyx : y = x
    · exact ⟨0, by simp [idxOf?, hyx]⟩
    · have hx' : x ∈ ys := by
        rcases List.mem_cons.mp hx with h | h
        · exact absurd h.symm hyx
        · exact h
      rcases idxOf?_of_mem hx' with ⟨i, hi⟩
      exact ⟨i + 1, by simp [idxOf?, hyx, hi]⟩

lemma assignedShard_of_mem (st : PartitionStrategy) {total : Nat}
    (htotal : 1 ≤ total) {tl : TestList} {bid tn : String}
    (hmem : (bid, tn) ∈ allTests tl) :
    ∃ a, assignedShard st total tl bid tn = some a ∧ 1 ≤ a ∧ a ≤ total := by
  cases st with
  | count =>
    rcases idxOf?_of_mem hmem with ⟨i, hi⟩
    refine ⟨i % total + 1, ?_, Nat.le_add_left 1 _, ?_⟩
    · simp [assignedShard, testOrdinal, hi]
    · have := Nat.mod_lt i (Nat.lt_of_lt_of_le Nat.zero_lt_one htotal)
      omega
  | hash =>
    refine ⟨stableHash bid tn % total + 1, rfl, Nat.le_add_left 1 _, ?_⟩
    have := Nat.mod_lt (stableHash bid tn)
      (Nat.lt_of_lt_of_le Nat.zero_lt_one htotal)
    omega

lemma classify_true_iff (st : PartitionStrategy) (s total : Nat)
    (tl : TestList) (bid tn : String) :
    PartitionerBuilder.classify ⟨st, s, total⟩ tl bid tn = true ↔
      assignedShard st total tl bid tn = some s := by
  unfold PartitionerBuilder.classify
  cases h : assignedShard st total tl bid tn with
  | none => simp
  | some a => simp [beq_iff_eq]

/-- A concrete TestList used by witnesses: binary "b1" with tests
"a" (ignored = false) and "b" (ignored = true). -/
def sampleTestList : TestList :=
  [⟨"b1", ⟨2, true, true⟩, [⟨"a", false⟩, ⟨"b", true⟩]⟩]

/-- Claim C1: for a Partitioner with total shards N ≥ 1, each test of a
fixed TestList is classified true by exactly one shard index in [1, N],
for both strategies; the shards' classified-true sets cover the test set
and are pairwise disjoint. -/
theorem partition_exactly_one_shard (N : Nat) (hN : 1 ≤ N)
    (st : PartitionStrategy) (tl : TestList) :
    (∀ bid tn, (bid, tn) ∈ allTests tl →
      ∃! s : Nat, (1 ≤ s ∧ s ≤ N) ∧
        PartitionerBuilder.classify ⟨st, s, N⟩ tl bid tn = true)
    ∧ (∀ x ∈ allTests tl, ∃ s, (1 ≤ s ∧ s ≤ N) ∧
        PartitionerBuilder.classify ⟨st, s, N⟩ tl x.1 x.2 = true)
    ∧ (∀ s₁ s₂, s₁ ≠ s₂ → ∀ x ∈ allTests tl,
        ¬(PartitionerBuilder.classify ⟨st, s₁, N⟩ tl x.1 x.2 = true ∧
          PartitionerBuilder.classify ⟨st, s₂, N⟩ tl x.1 x.2 = true)) := by
  have key : ∀ bid tn, (bid, tn) ∈ allTests tl →
      ∃! s : Nat, (1 ≤ s ∧ s ≤ N) ∧
        PartitionerBuilder.classify ⟨st, s, N⟩ tl bid tn = true := by
    intro bid tn hmem
    obtain ⟨a, ha, h1, h2⟩ := assignedShard_of_mem st hN hmem
    refine ⟨a, ⟨⟨h1, h2⟩, (classify_true_iff st a N tl bid tn).mpr ha⟩, ?_⟩
    intro s hs
    have hs' := (classify_true_iff st s N tl bid tn).mp hs.2
    rw [ha] at hs'
    exact (Option.some_inj.mp hs').symm
  refine ⟨key, ?_, ?_⟩
  · intro x hx
    obtain ⟨s, hs, _⟩ := key x.1 x.2 hx
    exact ⟨s, hs⟩
  · intro s₁ s₂ hne x hx ⟨hc1, hc2⟩
    have h1 := (classify_true_iff st s₁ N tl x.1 x.2).mp hc1
    have h2 := (classify_true_iff st s₂ N tl x.1 x.2).mp hc2
    rw [h1] at h2
    exact hne (Option.some_inj.mp h2)

/-- Witness for C1 at N = 2, count strategy, on the sample TestList. -/
theorem partition_exactly_one_shard_witness :
    (1 ≤ 2) ∧ (("b1", "a") ∈ allTests sampleTestList) ∧
    (∃! s : Nat, (1 ≤ s ∧ s ≤ 2) ∧
      PartitionerBuilder.classify ⟨.count, s, 2⟩ sampleTestList
        ("b1") ("a") = true) :=
  ⟨by decide, by decide,
    (partition_exactly_one_shard 2 (by decide) .count sampleTestList).1
      ("b1") ("a") (by decide)⟩

/-- Claim C6: under the count strategy, a test is classified into this
shard exactly when (ordinal index mod total shards) + 1 equals the
configured shard, with the ordinal taken from the TestList's stable
iteration order. -/
theorem count_partition_ordinal (p : PartitionerBuilder) (tl : TestList)
    (bid tn : String) (i : Nat) (hst : p.strategy = .count)
    (hord : testOrdinal tl bid tn = some i) :
    p.classify tl bid tn = true ↔ i % p.totalShards + 1 = p.shard := by
  obtain ⟨st, s, N⟩ := p
  cases hst
  rw [classify_true_iff]
  simp [assignedShard, hord]

/-- Witness for C6: spec "count:1/2" on the sample TestList assigns test
"a" (ordinal 0) to shard 1. -/
theorem count_partition_ordinal_witness :
    ((⟨.count, 1, 2⟩ : PartitionerBuilder).strategy = .count) ∧
    (testOrdinal sampleTestList ("b1") ("a") = some 0) ∧
    ((⟨.count, 1, 2⟩ : PartitionerBuilder).classify sampleTestList
        ("b1") ("a") = true ↔ 0 % 2 + 1 = 1) :=
  ⟨rfl, by decide,
    count_partition_ordinal ⟨.count, 1, 2⟩ sampleTestList ("b1") ("a") 0
      rfl (by decide)⟩

/-- Modelled from the spec: `RunIgnored`, the enumerated ignored-test
policy of `nextest_runner::test_filter::RunIgnored`. -/
inductive RunIgnored
  | default
  | ignoredOnly
  | all
deriving DecidableEq

/-- Modelled from the spec: `MismatchReason`, the auditable reason a test
was excluded (`testrunner::test_filter::MismatchReason`). -/
inductive MismatchReason
  | partition
  | nameFilter
  | ignored
  | notIgnored
deriving DecidableEq

/-- Modelled from the spec: `FilterMatch`, the tagged outcome of
evaluating one test (`testrunner::test_filter::FilterMatch`). -/
inductive FilterMatch
  | matches (needsIgnoredInvocation : Bool)
  | mismatch (reason : MismatchReason)
deriving DecidableEq

/-- Whether a configured partition predicate excludes the test (no
predicate configured excludes nothing). -/
def partitionExcludes (pp : Option (String → String → Bool))
    (bid tn : String) : Bool :=
  match pp with
  | some f => ! f bid tn
  | none => false

/-- Whether a configured name predicate excludes the test. -/
def nameExcludes (np : Option (String → Bool)) (tn : String) : Bool :=
  match np with
  | some f => ! f tn
  | none => false

/-- Modelled from the spec: `evaluate(binary_id, test, policy,
name_predicate) -> FilterMatch`, checking partition, then name predicate,
then ignored status, first applicable reason winning. -/
def evaluate (pp : Option (String → String → Bool))
    (np : Option (String → Bool)) (policy : RunIgnored) (bid : String)
    (test : NativeTestInfo) : FilterMatch :=
  if partitionExcludes pp bid test.name then .mismatch .partition
  else if nameExcludes np test.name then .mismatch .nameFilter
  else
    match policy, test.ignored with
    | .default, true => .mismatch .ignored
    | .ignoredOnly, false => .mismatch .notIgnored
    | _, _ => .matches test.ignored

/-- Claim C2: a test excluded by the partition predicate always yields
mismatch(Partition), never an ignored-status reason, whatever the
ignored flag and policy; the partition check runs first. -/
theorem partition_before_ignored (f : String → String → Bool)
    (np : Option (String → Bool)) (policy : RunIgnored) (bid : String)
    (test : NativeTestInfo) (hout : f bid test.name = false) :
    evaluate (some f) np policy bid test = .mismatch .partition ∧
    evaluate (some f) np policy bid test ≠ .mismatch .ignored ∧
    evaluate (some f) np policy bid test ≠ .mismatch .notIgnored := by
  have h : evaluate (some f) np policy bid test = .mismatch .partition := by
    simp [evaluate, partitionExcludes, hout]
  refine ⟨h, ?_, ?_⟩ <;> simp [h]

/-- Witness for C2: an always-false partition predicate on an ignored
test under the Default policy. -/
theorem partition_before_ignored_witness :
    ((fun _ _ => false) : String → String → Bool) ("b1") ("b") = false ∧
    evaluate (some (fun _ _ => false)) none .default ("b1") ⟨"b", true⟩ =
      .mismatch .partition :=
  ⟨rfl, (partition_before_ignored (fun _ _ => false) none .default ("b1")
    ⟨"b", true⟩ rfl).1⟩

/-- Claim C5: for a test passing the partition and name checks, the
ignored axis decides: ignored ∧ Default → mismatch(Ignored); not ignored
∧ IgnoredOnly → mismatch(NotIgnored); All never mismatches here; in all
remaining cases the result is matches(needs = ignored flag). -/
theorem evaluate_ignored_axis (pp : Option (String → String → Bool))
    (np : Option (String → Bool)) (policy : RunIgnored) (bid : String)
    (test : NativeTestInfo)
    (hp : partitionExcludes pp bid test.name = false)
    (hn : nameExcludes np test.name = false) :
    (test.ignored = true → policy = .default →
      evaluate pp np policy bid test = .mismatch .ignored)
    ∧ (test.ignored = false → policy = .ignoredOnly →
      evaluate pp np policy bid test = .mismatch .notIgnored)
    ∧ (policy = .all → evaluate pp np policy bid test = .matches test.ignored)
    ∧ ((policy = .default → test.ignored = false) →
       (policy = .ignoredOnly → test.ignored = true) →
      evaluate pp np policy bid test = .matches test.ignored) := by
  cases policy <;> cases hi : test.ignored <;>
    simp_all [evaluate, hp, hn, hi]

/-- Witness for C5: the spec scenario "hash:1/1" (no exclusion) with
policy IgnoredOnly: test "a" (not ignored) mismatches NotIgnored. -/
theorem evaluate_ignored_axis_witness :
    partitionExcludes none ("b1") ("a") = false ∧
    nameExcludes none ("a") = false ∧
    ((⟨"a", false⟩ : NativeTestInfo).ignored = false →
      RunIgnored.ignoredOnly = .ignoredOnly →
      evaluate none none .ignoredOnly ("b1") ⟨"a", false⟩ =
        .mismatch .notIgnored) :=
  ⟨rfl, rfl, (evaluate_ignored_axis none none .ignoredOnly ("b1")
    ⟨"a", false⟩ rfl rfl).2.1⟩

/-- Split a character list at every occurrence of a separator; always
returns at least one part. -/
def splitOnChar (c : Char) : List Char → List (List Char)
  | [] => [[]]
  | x :: xs =>
    if x = c then [] :: splitOnChar c xs
    else
      match splitOnChar c xs with
      | [] => [[x]]
      | y :: ys => (x :: y) :: ys

lemma splitOnChar_ne_nil (c : Char) (l : List Char) :
    splitOnChar c l ≠ [] := by
  cases l with
  | nil => simp [splitOnChar]
  | cons x xs =>
    unfold splitOnChar
    by_cases hx : x = c
    · simp [hx]
    · simp only [hx, if_false]
      cases splitOnChar c xs <;> simp

lemma splitOnChar_cons_of_ne {c x : Char} (xs : List Char) (hx : ¬x = c)
    {y : List Char} {ys : List (List Char)}
    (hs : splitOnChar c xs = y :: ys) :
    splitOnChar c (x :: xs) = (x :: y) :: ys := by
  unfold splitOnChar
  rw [if_neg hx, hs]

lemma splitOnChar_eq_single (c : Char) :
    ∀ (l a : List Char), splitOnChar c l = [a] ↔ l = a ∧ c ∉ a := by
  intro l
  induction l with
  | nil =>
    intro a
    constructor
    · intro h
      have ha : a = [] := by simpa [splitOnChar] using h
      subst ha
      exact ⟨rfl, by simp⟩
    · rintro ⟨h, -⟩
      rw [← h]
      rfl
  | cons x xs ih =>
    intro a
    by_cases hx : x = c
    · constructor
      · intro h
        cases hs : splitOnChar c xs with
        | nil => exact absurd hs (splitOnChar_ne_nil c xs)
        | cons y ys =>
          rw [splitOnChar, if_pos hx, hs] at h
          simp at h
      · rintro ⟨h, hc⟩
        subst h
        exact absurd (List.mem_cons.mpr (Or.inl hx.symm)) hc
    · obtain ⟨y, ys, hs⟩ : ∃ y ys, splitOnChar c xs = y :: ys := by
        cases hs : splitOnChar c xs with
        | nil => exact absurd hs (splitOnChar_ne_nil c xs)
        | cons y ys => exact ⟨y, ys, rfl⟩
      rw [splitOnChar_cons_of_ne xs hx hs]
      constructor
      · intro h
        rw [List.cons.injEq] at h
        obtain ⟨h1, h2⟩ := h
        subst h2
        obtain ⟨hxs, hcy⟩ := (ih y).mp hs
        subst hxs
        rw [← h1]
        refine ⟨rfl, ?_⟩
        intro hm
        rcases List.mem_cons.mp hm with h1 | h1
        · exact hx h1.symm
        · exact hcy h1
      · rintro ⟨h, hc⟩
        subst h
        have hxs : splitOnChar c xs = [xs] :=
          (ih xs).mpr ⟨rfl, fun hm => hc (List.mem_cons.mpr (Or.inr hm))⟩
        have hyx : y :: ys = [xs] := hs.symm.trans hxs
        rw [List.cons.injEq] at hyx
        obtain ⟨hy, hys⟩ := hyx
        subst hy
        subst hys
        rfl

lemma splitOnChar_eq_pair (c : Char) :
    ∀ (l a b : List Char), splitOnChar c l = [a, b] ↔
      l = a ++ c :: b ∧ c ∉ a ∧ c ∉ b := by
  intro l
  induction l with
  | nil =>
    intro a b
    constructor
    · intro h
      simp [splitOnChar] at h
    · rintro ⟨h, -, -⟩
      exact absurd h (by simp)
  | cons x xs ih =>
    intro a b
    by_cases hx : x = c
    · subst hx
      rw [splitOnChar, if_pos rfl]
      constructor
      · intro h
        rw [List.cons.injEq] at h
        obtain ⟨ha, hb⟩ := h
        obtain ⟨hxs, hcb⟩ := (splitOnChar_eq_single x xs b).mp hb
        subst hxs
        rw [← ha]
        exact ⟨rfl, by simp, hcb⟩
      · rintro ⟨h, hca, hcb⟩
        cases a with
        | nil =>
          simp only [List.nil_append, List.cons.injEq, true_and] at h
          subst h
          rw [(splitOnChar_eq_single x xs xs).mpr ⟨rfl, hcb⟩]
        | cons a0 arest =>
          rw [List.cons_append, List.cons.injEq] at h
          exact absurd (List.mem_cons.mpr (Or.inl h.1)) hca
    · obtain ⟨y, ys, hs⟩ : ∃ y ys, splitOnChar c xs = y :: ys := by
        cases hs : splitOnChar c xs with
        | nil => exact absurd hs (splitOnChar_ne_nil c xs)
        | cons y ys => exact ⟨y, ys, rfl⟩
      rw [splitOnChar_cons_of_ne xs hx hs]
      constructor
      · intro h
        rw [List.cons.injEq] at h
        obtain ⟨h1, h2⟩ := h
        rw [h2] at hs
        obtain ⟨hxs, hcy, hcb⟩ := (ih y b).mp hs
        subst hxs
        rw [← h1]
        refine ⟨by simp, ?_, hcb⟩
        intro hm
        rcases List.mem_cons.mp hm with hm1 | hm1
        · exact hx hm1.symm
        · exact hcy hm1
      · rintro ⟨h, hca, hcb⟩
        cases a with
        | nil =>
          simp only [List.nil_append, List.cons.injEq] at h
          exact absurd h.1 hx
        | cons a0 arest =>
          rw [List.cons_append, List.cons.injEq] at h
          obtain ⟨ha0, harest⟩ := h
          have hcarest : c ∉ arest :=
            fun hm => hca (List.mem_cons.mpr (Or.inr hm))
          have hsp : splitOnChar c xs = [arest, b] :=
            (ih arest b).mpr ⟨harest, hcarest, hcb⟩
          have hy : y :: ys = [arest, b] := hs.symm.trans hsp
          rw [List.cons.injEq] at hy
          obtain ⟨hy1, hy2⟩ := hy
          subst hy1
          subst hy2
          rw [ha0]

/-- Decimal value of a digit character, if it is one. -/
def digitVal (c : Char) : Option Nat :=
  if c.isDigit then some (c.toNat - Char.toNat '0') else none

/-- Accumulate decimal digits left to right. -/
def parseDigitsAux (acc : Nat) : List Char → Option Nat
  | [] => some acc
  | c :: cs =>
    match digitVal c with
    | some d => parseDigitsAux (acc * 10 + d) cs
    | none => none

/-- Parse a nonempty all-digit character list as a natural number. -/
def parseNatDigits (l : List Char) : Option Nat :=
  if l.isEmpty then none else parseDigitsAux 0 l

/-- Modelled from the spec: the recognized strategy keywords of the
partition spec string, "count" and "hash". -/
def strategyOfChars (l : List Char) : Option PartitionStrategy :=
  if l = ("count").data then some .count
  else if l = ("hash").data then some .hash
  else none

/-- Modelled from the spec: `ConfigError`, reported when a partition spec
string is malformed or its shard/total are out of range. -/
inductive ConfigError
  | malformedSpec (input : String)
  | unknownStrategy (input : String)
  | invalidNumber (input : String)
  | shardOutOfRange (shard total : Nat)
deriving DecidableEq

/-- Modelled from the spec: the `FromStr` parse of
`nextest_runner::partition::PartitionerBuilder`, accepting
"<strategy>:<shard>/<total>" with strategy "count" or "hash",
1 ≤ shard ≤ total. -/
def PartitionerBuilder.fromStr (s : String) :
    Except ConfigError PartitionerBuilder :=
  match splitOnChar ':' s.data with
  | [stratPart, rest] =>
    match splitOnChar '/' rest with
    | [shardPart, totalPart] =>
      match strategyOfChars stratPart with
      | some st =>
        match parseNatDigits shardPart, parseNatDigits totalPart with
        | some shard, some total =>
          if 1 ≤ shard ∧ shard ≤ total then .ok ⟨st, shard, total⟩
          else .error (.shardOutOfRange shard total)
        | _, _ => .error (.invalidNumber s)
      | none => .error (.unknownStrategy s)
    | _ => .error (.malformedSpec s)
  | _ => .error (.malformedSpec s)

lemma fromStr_ok_elim {s : String} {p : PartitionerBuilder}
    (h : PartitionerBuilder.fromStr s = .ok p) :
    ∃ stratPart shardPart totalPart : List Char,
      splitOnChar ':' s.data = [stratPart, shardPart ++ '/' :: totalPart] ∧
      splitOnChar '/' (shardPart ++ '/' :: totalPart) =
        [shardPart, totalPart] ∧
      strategyOfChars stratPart = some p.strategy ∧
      parseNatDigits shardPart = some p.shard ∧
      parseNatDigits totalPart = some p.totalShards ∧
      1 ≤ p.shard ∧ p.shard ≤ p.totalShards := by
  unfold PartitionerBuilder.fromStr at h
  split at h
  · rename_i sp rest h1
    split at h
    · rename_i shp tp h2
      split at h
      · rename_i st h3
        split at h
        · rename_i shard total h4 h5
          split at h
          · rename_i hcond
            simp only [Except.ok.injEq] at h
            subst h
            obtain ⟨hrest, hs1, hs2⟩ :=
              (splitOnChar_eq_pair '/' rest shp tp).mp h2
            subst hrest
            exact ⟨sp, shp, tp, h1, h2, h3, h4, h5, hcond.1, hcond.2⟩
          · simp at h
        · simp at h
      · simp at h
    · simp at h
  · simp at h

lemma fromStr_ok_intro {s : String} {st : PartitionStrategy}
    {shard total : Nat} {stratPart shardPart totalPart : List Char}
    (hdata : s.data = stratPart ++ ':' :: (shardPart ++ '/' :: totalPart))
    (hc1 : ':' ∉ stratPart)
    (hc2 : ':' ∉ shardPart ++ '/' :: totalPart)
    (hs1 : '/' ∉ shardPart) (hs2 : '/' ∉ totalPart)
    (hstrat : strategyOfChars stratPart = some st)
    (hshard : parseNatDigits shardPart = some shard)
    (htotal : parseNatDigits totalPart = some total)
    (h1 : 1 ≤ shard) (h2 : shard ≤ total) :
    PartitionerBuilder.fromStr s = .ok ⟨st, shard, total⟩ := by
  have hsplit1 : splitOnChar ':' s.data =
      [stratPart, shardPart ++ '/' :: totalPart] :=
    (splitOnChar_eq_pair ':' s.data stratPart _).mpr ⟨hdata, hc1, hc2⟩
  have hsplit2 : splitOnChar '/' (shardPart ++ '/' :: totalPart) =
      [shardPart, totalPart] :=
    (splitOnChar_eq_pair '/' _ shardPart totalPart).mpr ⟨rfl, hs1, hs2⟩
  unfold PartitionerBuilder.fromStr
  split
  · rename_i a b heq
    rw [hsplit1] at heq
    simp only [List.cons.injEq, and_true] at heq
    obtain ⟨ha, hb⟩ := heq
    subst ha
    subst hb
    split
    · rename_i c d heq2
      rw [hsplit2] at heq2
      simp only [List.cons.injEq, and_true] at heq2
      obtain ⟨hc, hd⟩ := heq2
      subst hc
      subst hd
      rw [hstrat, hshard, htotal]
      simp only []
      rw [if_pos ⟨h1, h2⟩]
    · rename_i hne
      exact absurd hsplit2 (hne _ _)
  · rename_i hne
    exact absurd hsplit1 (hne _ _)

lemma fromStr_range_error {s : String} {st : PartitionStrategy}
    {shard total : Nat} {stratPart shardPart totalPart : List Char}
    (hdata : s.data = stratPart ++ ':' :: (shardPart ++ '/' :: totalPart))
    (hc1 : ':' ∉ stratPart)
    (hc2 : ':' ∉ shardPart ++ '/' :: totalPart)
    (hs1 : '/' ∉ shardPart) (hs2 : '/' ∉ totalPart)
    (hstrat : strategyOfChars stratPart = some st)
    (hshard : parseNatDigits shardPart = some shard)
    (htotal : parseNatDigits totalPart = some total)
    (hbad : ¬(1 ≤ shard ∧ shard ≤ total)) :
    PartitionerBuilder.fromStr s = .error (.shardOutOfRange shard total) := by
  have hsplit1 : splitOnChar ':' s.data =
      [stratPart, shardPart ++ '/' :: totalPart] :=
    (splitOnChar_eq_pair ':' s.data stratPart _).mpr ⟨hdata, hc1, hc2⟩
  have hsplit2 : splitOnChar '/' (shardPart ++ '/' :: totalPart) =
      [shardPart, totalPart] :=
    (splitOnChar_eq_pair '/' _ shardPart totalPart).mpr ⟨rfl, hs1, hs2⟩
  unfold PartitionerBuilder.fromStr
  split
  · rename_i a b heq
    rw [hsplit1] at heq
    simp only [List.cons.injEq, and_true] at heq
    obtain ⟨ha, hb⟩ := heq
    subst ha
    subst hb
    split
    · rename_i c d heq2
      rw [hsplit2] at heq2
      simp only [List.cons.injEq, and_true] at heq2
      obtain ⟨hc, hd⟩ := heq2
      subst hc
      subst hd
      rw [hstrat, hshard, htotal]
      simp only []
      rw [if_neg hbad]
    · rename_i hne
      exact absurd hsplit2 (hne _ _)
  · rename_i hne
    exact absurd hsplit1 (hne _ _)

/-- Claim C3: parsing a partition spec string succeeds exactly on
"<strategy>:<shard>/<total>" with strategy "count" or "hash" and
1 ≤ shard ≤ total (hence total ≥ 1); any failing input — out-of-range
shard/total, unrecognized strategy, or malformed shape — yields a
ConfigError. -/
theorem partitioner_fromStr_spec :
    (∀ (s : String) (p : PartitionerBuilder),
      PartitionerBuilder.fromStr s = .ok p ↔
        ∃ stratPart shardPart totalPart : List Char,
          s.data = stratPart ++ ':' :: (shardPart ++ '/' :: totalPart) ∧
          ':' ∉ stratPart ∧ ':' ∉ shardPart ++ '/' :: totalPart ∧
          '/' ∉ shardPart ∧ '/' ∉ totalPart ∧
          strategyOfChars stratPart = some p.strategy ∧
          parseNatDigits shardPart = some p.shard ∧
          parseNatDigits totalPart = some p.totalShards ∧
          1 ≤ p.shard ∧ p.shard ≤ p.totalShards ∧ 1 ≤ p.totalShards)
    ∧ (∀ s : String, (¬∃ p, PartitionerBuilder.fromStr s = .ok p) →
        ∃ e, PartitionerBuilder.fromStr s = .error e)
    ∧ (∀ (s : String) (stratPart shardPart totalPart : List Char)
        (st : PartitionStrategy) (shard total : Nat),
        s.data = stratPart ++ ':' :: (shardPart ++ '/' :: totalPart) →
        ':' ∉ stratPart → ':' ∉ shardPart ++ '/' :: totalPart →
        '/' ∉ shardPart → '/' ∉ totalPart →
        strategyOfChars stratPart = some st →
        parseNatDigits shardPart = some shard →
        parseNatDigits totalPart = some total →
        ¬(1 ≤ shard ∧ shard ≤ total) →
        PartitionerBuilder.fromStr s =
          .error (.shardOutOfRange shard total)) := by
  refine ⟨?_, ?_, ?_⟩
  · intro s p
    constructor
    · intro h
      obtain ⟨sp, shp, tp, h1, h2, h3, h4, h5, hs1, hs2⟩ :=
        fromStr_ok_elim h
      obtain ⟨hdata, hc1, hc2⟩ := (splitOnChar_eq_pair ':' s.data sp _).mp h1
      obtain ⟨-, hq1, hq2⟩ := (splitOnChar_eq_pair '/' _ shp tp).mp h2
      exact ⟨sp, shp, tp, hdata, hc1, hc2, hq1, hq2, h3, h4, h5, hs1, hs2,
        le_trans hs1 hs2⟩
    · rintro ⟨sp, shp, tp, hdata, hc1, hc2, hq1, hq2, h3, h4, h5, hs1, hs2, -⟩
      have := fromStr_ok_intro hdata hc1 hc2 hq1 hq2 h3 h4 h5 hs1 hs2
      rw [this]
  · intro s hno
    cases hf : PartitionerBuilder.fromStr s with
    | ok p => exact absurd ⟨p, hf⟩ hno
    | error e => exact ⟨e, rfl⟩
  · intro s sp shp tp st shard total hdata hc1 hc2 hq1 hq2 h3 h4 h5 hbad
    exact fromStr_range_error hdata hc1 hc2 hq1 hq2 h3 h4 h5 hbad

/-- Witness for C3: "hash:2/4" parses to the hash strategy with shard 2
of 4; "hash:9/4" (shard > total) fails with shardOutOfRange. -/
theorem partitioner_fromStr_spec_witness :
    PartitionerBuilder.fromStr ("hash:2/4") =
      .ok ⟨PartitionStrategy.hash, 2, 4⟩ ∧
    PartitionerBuilder.fromStr ("hash:9/4") =
      .error (.shardOutOfRange 9 4) :=
  ⟨(partitioner_fromStr_spec.1 ("hash:2/4") ⟨.hash, 2, 4⟩).mpr
      ⟨("hash").data, ("2").data, ("4").data, by decide, by decide,
        by decide, by decide, by decide, by decide, by decide, by decide,
        by decide, by decide, by decide⟩,
    partitioner_fromStr_spec.2.2 ("hash:9/4") ("hash").data ("9").data
      ("4").data .hash 9 4 (by decide) (by decide) (by decide) (by decide)
      (by decide) (by decide) (by decide) (by decide) (by decide)⟩

/-- Claim C4: two Partitioners built independently from the same spec
string classify identically on every (binary, test) pair over a fixed
TestList, and under the hash strategy the classification is a function of
(binary id, test name) alone — it does not depend on the TestList or any
process-local state. -/
theorem hash_partition_reproducible (s : String)
    (p₁ p₂ : PartitionerBuilder)
    (hp₁ : PartitionerBuilder.fromStr s = .ok p₁)
    (hp₂ : PartitionerBuilder.fromStr s = .ok p₂) :
    (∀ tl bid tn, p₁.classify tl bid tn = p₂.classify tl bid tn)
    ∧ (p₁.strategy = .hash → ∀ tl₁ tl₂ bid tn,
        p₁.classify tl₁ bid tn = p₂.classify tl₂ bid tn) := by
  have hpp : p₁ = p₂ := by
    rw [hp₁] at hp₂
    exact (Except.ok.injEq _ _ ▸ hp₂ : p₁ = p₂)
  subst hpp
  refine ⟨fun tl bid tn => rfl, fun hst tl₁ tl₂ bid tn => ?_⟩
  obtain ⟨st, sh, tot⟩ := p₁
  cases hst
  simp [PartitionerBuilder.classify, assignedShard]

/-- Witness for C4: two parses of "hash:2/4" classify identically even
over different TestLists. -/
theorem hash_partition_reproducible_witness :
    PartitionerBuilder.fromStr ("hash:2/4") =
      .ok ⟨PartitionStrategy.hash, 2, 4⟩ ∧
    ((⟨PartitionStrategy.hash, 2, 4⟩ : PartitionerBuilder).strategy =
      .hash →
      ∀ tl₁ tl₂ bid tn,
        (⟨PartitionStrategy.hash, 2, 4⟩ : PartitionerBuilder).classify
            tl₁ bid tn =
          (⟨PartitionStrategy.hash, 2, 4⟩ : PartitionerBuilder).classify
            tl₂ bid tn) := by
  have hok : PartitionerBuilder.fromStr ("hash:2/4") =
      .ok ⟨PartitionStrategy.hash, 2, 4⟩ := rfl
  exact ⟨hok, (hash_partition_reproducible ("hash:2/4") _ _ hok hok).2⟩

/-- Modelled from the spec: the `FromStr` parse of
`nextest_runner::test_filter::RunIgnored`, recognizing one keyword per
policy value. -/
def RunIgnored.fromStr (s : String) : Except ConfigError RunIgnored :=
  if s = ("default") then .ok .default
  else if s = ("ignored-only") then .ok .ignoredOnly
  else if s = ("all") then .ok .all
  else .error (.unknownStrategy s)

/-- Claim C10: each of the three RunIgnored policy values is produced by
some input string, and every unrecognized input fails to parse instead of
producing a policy value. -/
theorem runIgnored_fromStr_spec :
    RunIgnored.fromStr ("default") = .ok .default
    ∧ RunIgnored.fromStr ("ignored-only") = .ok .ignoredOnly
    ∧ RunIgnored.fromStr ("all") = .ok .all
    ∧ (∀ s : String, s ≠ ("default") → s ≠ ("ignored-only") →
        s ≠ ("all") → ∃ e, RunIgnored.fromStr s = .error e)
    ∧ (∀ (s : String) (r : RunIgnored), RunIgnored.fromStr s = .ok r →
        s = ("default") ∨ s = ("ignored-only") ∨ s = ("all")) := by
  refine ⟨rfl, rfl, rfl, ?_, ?_⟩
  · intro s h1 h2 h3
    refine ⟨.unknownStrategy s, ?_⟩
    unfold RunIgnored.fromStr
    rw [if_neg h1, if_neg h2, if_neg h3]
  · intro s r h
    unfold RunIgnored.fromStr at h
    by_cases h1 : s = ("default")
    · exact Or.inl h1
    · by_cases h2 : s = ("ignored-only")
      · exact Or.inr (Or.inl h2)
      · by_cases h3 : s = ("all")
        · exact Or.inr (Or.inr h3)
        · rw [if_neg h1, if_neg h2, if_neg h3] at h
          simp at h

/-- Witness for C10: an unrecognized policy string fails to parse. -/
theorem runIgnored_fromStr_spec_witness :
    ∃ e, RunIgnored.fromStr ("sometimes") = .error e :=
  runIgnored_fromStr_spec.2.2.2.1 ("sometimes") (by decide) (by decide)
    (by decide)

/-- Modelled from the spec: the binary discovery capability's result for
one binary — a self-reported list of (test name, ignored flag) pairs, or
a structured discovery failure. -/
inductive DiscoveryOutcome
  | ok (tests : List (String × Bool))
  | err (message : String)
deriving DecidableEq

/-- Modelled from the spec: a binary-scoped build error — DiscoveryError
(the binary could not be listed) or NameCollisionError (duplicate test
name inside one binary's report). -/
inductive BinaryError
  | discovery (message : String)
  | nameCollision (dupName : String)
deriving DecidableEq

/-- First element of the list that occurs again later, if any. -/
def firstDup : List String → Option String
  | [] => none
  | x :: xs => if x ∈ xs then some x else firstDup xs

/-- Build one TestList entry from a binary's self-reported tests. -/
def mkEntry (bid : String) (tests : List (String × Bool)) :
    TestListEntry :=
  ⟨bid, ⟨tests.length, true, true⟩, tests.map (fun t => ⟨t.1, t.2⟩)⟩

/-- Modelled from the spec: `build(discovered_binaries) -> TestList`.
Each binary's discovery result is processed independently: failures and
name collisions are recorded as binary-level errors and exclude only that
binary; successful binaries become TestList entries in input order. -/
def TestList.build :
    List (String × DiscoveryOutcome) → TestList × List (String × BinaryError)
  | [] => ([], [])
  | (bid, outcome) :: rest =>
    let result := TestList.build rest
    match outcome with
    | .err m => (result.1, (bid, .discovery m) :: result.2)
    | .ok tests =>
      match firstDup (tests.map Prod.fst) with
      | some d => (result.1, (bid, .nameCollision d) :: result.2)
      | none => (mkEntry bid tests :: result.1, result.2)

/-- The entry a binary's discovery result contributes to the TestList. -/
def entryOf? : String × DiscoveryOutcome → Option TestListEntry
  | (bid, .ok tests) =>
    match firstDup (tests.map Prod.fst) with
    | none => some (mkEntry bid tests)
    | some _ => none
  | (_, .err _) => none

/-- The binary-level error a discovery result contributes, if any. -/
def errorOf? : String × DiscoveryOutcome → Option (String × BinaryError)
  | (bid, .ok tests) =>
    (firstDup (tests.map Prod.fst)).map (fun d => (bid, .nameCollision d))
  | (bid, .err m) => some (bid, .discovery m)

lemma build_eq (input : List (String × DiscoveryOutcome)) :
    TestList.build input =
      (input.filterMap entryOf?, input.filterMap errorOf?) := by
  induction input with
  | nil => rfl
  | cons x rest ih =>
    obtain ⟨bid, outcome⟩ := x
    cases outcome with
    | err m =>
      simp [TestList.build, ih, entryOf?, errorOf?, List.filterMap_cons]
    | ok tests =>
      cases hd : firstDup (tests.map Prod.fst) with
      | none =>
        simp [TestList.build, ih, entryOf?, errorOf?, hd,
          List.filterMap_cons]
      | some d =>
        simp [TestList.build, ih, entryOf?, errorOf?, hd,
          List.filterMap_cons]

lemma filterMap_congr_on {α β : Type} {f g : α → Option β} :
    ∀ {l : List α}, (∀ a ∈ l, f a = g a) →
      l.filterMap f = l.filterMap g
  | [], _ => rfl
  | a :: l, h => by
    rw [List.filterMap_cons, List.filterMap_cons,
      h a (List.mem_cons_self a l),
      filterMap_congr_on (fun b hb => h b (List.mem_cons_of_mem a hb))]

lemma firstDup_eq_none_iff : ∀ l : List String,
    firstDup l = none ↔ l.Nodup := by
  intro l
  induction l with
  | nil => simp [firstDup]
  | cons x xs ih =>
    by_cases hx : x ∈ xs
    · simp [firstDup, hx]
    · simp [firstDup, hx, ih]

/-- Claim C7: when some binaries' discovery fails and the rest succeed
(with collision-free reports), the build still succeeds: the TestList
holds exactly the successful binaries' entries in order, the error list
holds exactly the failed binaries, and every discovery failure appears in
the emitted errors. -/
theorem build_tolerates_failures (input : List (String × DiscoveryOutcome))
    (hok : ∀ bid tests, (bid, DiscoveryOutcome.ok tests) ∈ input →
      firstDup (tests.map Prod.fst) = none) :
    (TestList.build input).1 = input.filterMap (fun x =>
        match x.2 with
        | .ok ts => some (mkEntry x.1 ts)
        | .err _ => none)
    ∧ (TestList.build input).2 = input.filterMap (fun x =>
        match x.2 with
        | .err m => some (x.1, BinaryError.discovery m)
        | .ok _ => none)
    ∧ (∀ bid m, (bid, DiscoveryOutcome.err m) ∈ input →
        (bid, BinaryError.discovery m) ∈ (TestList.build input).2) := by
  rw [build_eq]
  refine ⟨?_, ?_, ?_⟩
  · apply filterMap_congr_on
    intro a ha
    obtain ⟨bid, outcome⟩ := a
    cases outcome with
    | err m => rfl
    | ok ts => simp [entryOf?, hok bid ts ha]
  · apply filterMap_congr_on
    intro a ha
    obtain ⟨bid, outcome⟩ := a
    cases outcome with
    | err m => rfl
    | ok ts => simp [errorOf?, hok bid ts ha]
  · intro bid m hmem
    exact List.mem_filterMap.mpr ⟨(bid, .err m), hmem, rfl⟩

/-- Concrete build input for witnesses: two successful binaries around
one failing discovery. -/
def sampleBuildInput : List (String × DiscoveryOutcome) :=
  [("b1", .ok [("a", false)]), ("bad", .err ("boom")),
   ("b2", .ok [("c", true)])]

/-- Witness for C7: with one failing binary among three, the two
successful binaries' entries survive and the failure is recorded. -/
theorem build_tolerates_failures_witness :
    (∀ bid tests, (bid, DiscoveryOutcome.ok tests) ∈ sampleBuildInput →
      firstDup (tests.map Prod.fst) = none) ∧
    (("bad"), BinaryError.discovery ("boom")) ∈
      (TestList.build sampleBuildInput).2 ∧
    (TestList.build sampleBuildInput).1 =
      [mkEntry ("b1") [(("a"), false)], mkEntry ("b2") [(("c"), true)]] := by
  have hok : ∀ bid tests,
      (bid, DiscoveryOutcome.ok tests) ∈ sampleBuildInput →
      firstDup (tests.map Prod.fst) = none := by
    intro bid tests hmem
    simp only [sampleBuildInput, List.mem_cons, List.not_mem_nil,
      or_false, Prod.mk.injEq] at hmem
    rcases hmem with ⟨-, h⟩ | ⟨-, h⟩ | ⟨-, h⟩
    · have := DiscoveryOutcome.ok.inj h
      subst this
      decide
    · exact absurd h (by simp)
    · have := DiscoveryOutcome.ok.inj h
      subst this
      decide
  exact ⟨hok,
    (build_tolerates_failures sampleBuildInput hok).2.2 ("bad") ("boom")
      (by decide),
    by decide⟩

lemma entryOf?_some_elim {a : String × DiscoveryOutcome}
    {e : TestListEntry} (h : entryOf? a = some e) :
    ∃ ts, a = (e.binaryId, DiscoveryOutcome.ok ts) ∧
      firstDup (ts.map Prod.fst) = none ∧ e = mkEntry e.binaryId ts := by
  obtain ⟨bid, outcome⟩ := a
  cases outcome with
  | err m => simp [entryOf?] at h
  | ok ts =>
    cases hd : firstDup (ts.map Prod.fst) with
    | some d => simp [entryOf?, hd] at h
    | none =>
      simp only [entryOf?, hd, Option.some.injEq] at h
      subst h
      exact ⟨ts, rfl, hd, rfl⟩

/-- Claim C8: a duplicate test name in one binary's report records a
NameCollisionError for that binary and excludes the binary from the
TestList while the build continues; consequently every binary in a
constructed TestList has pairwise-distinct test names. -/
theorem build_name_collision :
    (∀ (input : List (String × DiscoveryOutcome)) (bid : String)
        (tests : List (String × Bool)) (d : String),
      (input.map Prod.fst).Nodup →
      (bid, DiscoveryOutcome.ok tests) ∈ input →
      firstDup (tests.map Prod.fst) = some d →
      ((bid, BinaryError.nameCollision d) ∈ (TestList.build input).2 ∧
        ∀ e ∈ (TestList.build input).1, e.binaryId ≠ bid))
    ∧ (∀ input : List (String × DiscoveryOutcome),
        ∀ e ∈ (TestList.build input).1,
          (e.tests.map NativeTestInfo.name).Nodup) := by
  constructor
  · intro input bid tests d hnodup hmem hdup
    rw [build_eq]
    constructor
    · exact List.mem_filterMap.mpr
        ⟨(bid, .ok tests), hmem, by simp [errorOf?, hdup]⟩
    · intro e he hbid
      obtain ⟨a, ha, hea⟩ := List.mem_filterMap.mp he
      obtain ⟨ts, hae, hfd, -⟩ := entryOf?_some_elim hea
      subst hae
      rw [hbid] at ha
      have heq := List.inj_on_of_nodup_map hnodup ha hmem rfl
      have hts := DiscoveryOutcome.ok.inj (Prod.mk.injEq _ _ _ _ ▸ heq).2
      rw [hts, hdup] at hfd
      exact Option.noConfusion hfd
  · intro input e he
    rw [build_eq] at he
    obtain ⟨a, ha, hea⟩ := List.mem_filterMap.mp (by exact he)
    obtain ⟨ts, hae, hfd, hmk⟩ := entryOf?_some_elim hea
    rw [hmk]
    have : ((mkEntry e.binaryId ts).tests.map NativeTestInfo.name) =
        ts.map Prod.fst := by
      simp [mkEntry, List.map_map]
    rw [this]
    exact (firstDup_eq_none_iff _).mp hfd

/-- Concrete build input for the C8 witness: binary "dup" reports test
"a" twice. -/
def collisionBuildInput : List (String × DiscoveryOutcome) :=
  [("dup", .ok [("a", false), ("a", true)]), ("b2", .ok [("c", true)])]

/-- Witness for C8: the duplicated binary is excluded with a
NameCollisionError while "b2" stays. -/
theorem build_name_collision_witness :
    (collisionBuildInput.map Prod.fst).Nodup ∧
    (("dup"), DiscoveryOutcome.ok [(("a"), false), (("a"), true)]) ∈
      collisionBuildInput ∧
    firstDup ([(("a"), false), (("a"), true)].map Prod.fst) = some ("a") ∧
    ((("dup"), BinaryError.nameCollision ("a")) ∈
        (TestList.build collisionBuildInput).2 ∧
      ∀ e ∈ (TestList.build collisionBuildInput).1,
        e.binaryId ≠ ("dup")) :=
  ⟨by decide, by decide, by decide,
    build_name_collision.1 collisionBuildInput ("dup")
      [(("a"), false), (("a"), true)] ("a") (by decide) (by decide)
      (by decide)⟩

/-- Modelled from the spec: the per-test record of the serialized
TestList document — test name with its ignored flag. -/
structure TestEntryDoc where
  name : String
  ignored : Bool
deriving DecidableEq

/-- Modelled from the spec: one binary's record in the serialized
TestList document — binary identity, binary metadata, and its tests. -/
structure BinaryDoc where
  binaryId : String
  binInfo : TestBinInfo
  tests : List TestEntryDoc
deriving DecidableEq

/-- Modelled from the spec: the serialized TestList document, mapping
binary identity to binary metadata and per-test entries, in stable
order. -/
abbrev TestListDoc := List BinaryDoc

/-- Modelled from the spec: encoding a TestList to its serialized
document. -/
def encodeTestList (tl : TestList) : TestListDoc :=
  tl.map (fun e =>
    ⟨e.binaryId, e.binInfo, e.tests.map (fun t => ⟨t.name, t.ignored⟩)⟩)

/-- Modelled from the spec: decoding a serialized document back into a
TestList. -/
def decodeTestList (d : TestListDoc) : TestList :=
  d.map (fun b =>
    ⟨b.binaryId, b.binInfo, b.tests.map (fun t => ⟨t.name, t.ignored⟩)⟩)

/-- Claim C9: encoding a TestList to the serialized document and decoding
it back yields the original TestList — the round-trip is lossless. -/
theorem testList_roundtrip (tl : TestList) :
    decodeTestList (encodeTestList tl) = tl := by
  unfold decodeTestList encodeTestList
  rw [List.map_map]
  have : ∀ e : TestListEntry,
      (fun b : BinaryDoc =>
          (⟨b.binaryId, b.binInfo,
            b.tests.map (fun t => ⟨t.name, t.ignored⟩)⟩ : TestListEntry))
        ((fun e : TestListEntry =>
          (⟨e.binaryId, e.binInfo,
            e.tests.map (fun t => ⟨t.name, t.ignored⟩)⟩ : BinaryDoc)) e)
      = e := by
    intro e
    obtain ⟨bid, info, tests⟩ := e
    simp only [List.map_map]
    congr 1
    induction tests with
    | nil => rfl
    | cons t ts ih => simp [ih]
  calc tl.map _ = tl.map id := List.map_congr_left (fun e _ => this e)
    _ = tl := List.map_id tl
